import Mathlib

/-!
Verification development for the hashfs content-addressable file store.

The embedding models the Python sources shallowly:
  * Python strings are `Str := List Char`.
  * Filesystem paths are `FPath := List Str` — the list of path components of a
    normalized absolute path (what `os.path.realpath` would produce).  The
    store root is created with `os.path.realpath(root)`, so it is normalized.
  * Byte strings are `Content := List Nat` (one `Nat` per byte).
  * The filesystem is an explicit state: a finite association list of files,
    a list of existing directories, a list of directories that are symbolic
    links, and the process working directory (used by `os.path.isfile` on
    relative path strings).
  * The digest algorithm (`hashlib.new(algorithm)` + `hexdigest`) is a
    parameter `hash : Content → Str` of the store configuration; streaming
    the chunks through the hash object equals hashing the concatenation of
    the chunks, so the model hashes the whole content at once.
-/

/-- Python `str` is modelled as a list of characters. -/
abbrev Str := List Char

/-- A normalized absolute filesystem path, as its list of components. -/
abbrev FPath := List Str

/-- A byte string, one natural number (< 256 in practice) per byte. -/
abbrev Content := List Nat

/-- Boolean test that `a` is an initial segment of `b` (component-wise). -/
def segsLe : FPath → FPath → Bool
  | [], _ => true
  | _ :: _, [] => false
  | a :: as, b :: bs => a == b && segsLe as bs

/-- All initial segments of a path, shortest first (including `[]` and `p`). -/
def pathInits (p : FPath) : List FPath :=
  (List.range (p.length + 1)).map (fun n => p.take n)

/-- A well-formed path component list: every component is nonempty and
contains no path separator. -/
def validSegs (p : FPath) : Prop :=
  ∀ s ∈ p, s ≠ [] ∧ '/' ∉ s

instance : DecidablePred validSegs := fun p => by
  unfold validSegs; infer_instance

/-- Interleave path components with the separator character,
without a leading separator: `sepJoin [a, b] = a ++ "/" ++ b`. -/
def sepJoin : FPath → Str
  | [] => []
  | [a] => a
  | a :: rest => a ++ '/' :: sepJoin rest

/-- The string form of a normalized absolute path: a leading separator
followed by the separator-interleaved components. -/
def absStr (p : FPath) : Str := '/' :: sepJoin p

/-- Split a string at separator characters (auxiliary accumulator form). -/
def splitSlashAux : Str → Str → List Str
  | [], cur => [cur.reverse]
  | c :: rest, cur =>
      if c = '/' then cur.reverse :: splitSlashAux rest []
      else splitSlashAux rest (c :: cur)

/-- Components of a path string: split at separators and drop empty pieces
(the operating system collapses repeated and leading separators). -/
def strSegs (s : Str) : FPath :=
  (splitSlashAux s []).filter (fun c => c ≠ [])

/-- Whether a Python path string is absolute (starts with the separator). -/
def isAbsStr (s : Str) : Bool := s.head? == some '/'

/-- Resolve a path string against the working directory `cwd`, as the OS
does for the path argument of `os.path.isfile` and friends. -/
def parseStr (cwd : FPath) (s : Str) : FPath :=
  if isAbsStr s then strSegs s else cwd ++ strSegs s

/-- Python `os.path.join` on strings: a component that is absolute restarts
the result; otherwise a single separator is inserted unless one is already
present. -/
def pyJoin2 (a b : Str) : Str :=
  if isAbsStr b then b
  else if a = [] then b
  else if a.getLast? == some '/' then a ++ b
  else a ++ '/' :: b

/-- Python `os.path.join(x0, x1, ..., xn)` folded over a component list. -/
def pyJoin : List Str → Str
  | [] => []
  | a :: rest => rest.foldl pyJoin2 a

/-- Return only truthy elements of `items` (hashfs.utils.compact; on strings
truthy means nonempty). -/
def compact (items : List Str) : List Str := items.filter (fun s => s ≠ [])

/-- Python slice `s[a:b]` for natural indices `a ≤ b` (clamped at the end of
the string, as in Python). -/
def pyslice (s : Str) (a b : Nat) : Str := (s.drop a).take (b - a)

/-- hashfs.utils.shard: `depth` tokens of width `width` sliced from the front
of the digest, plus the remainder, with empty tokens dropped by `compact`. -/
def shard (digest : Str) (depth width : Nat) : List Str :=
  compact (((List.range depth).map
      (fun i => pyslice digest (i * width) (width * (i + 1))))
    ++ [digest.drop (depth * width)])

/-- Hexadecimal digest characters. -/
def hexChars : List Char := "0123456789abcdef".toList

/-- The string is made of lowercase hexadecimal characters only. -/
def hexStr (s : Str) : Prop := ∀ c ∈ s, c ∈ hexChars

instance : DecidablePred hexStr := fun s => by
  unfold hexStr; infer_instance

/-- Find the last `'.'` in a component: returns `(a, b)` with
`s = a ++ '.' :: b` and `b` dot-free, if the component contains a dot. -/
def rsplitDotAux : Str → Option (Str × Str)
  | [] => none
  | c :: rest =>
      match rsplitDotAux rest with
      | some (a, b) => some (c :: a, b)
      | none => if c = '.' then some ([], rest) else none

/-- Python `os.path.splitext` restricted to a single path component: split at
the last dot unless every character before it is itself a dot (so names made
only of leading dots, such as `.bashrc`, keep their extension-less form). -/
def splitextSeg (s : Str) : Str × Str :=
  match rsplitDotAux s with
  | none => (s, [])
  | some (a, b) => if a.any (fun ch => ch ≠ '.') then (a, '.' :: b) else (s, [])

/-- Python `os.path.splitext` on a component path: the dot logic applies to
the final component only. -/
def splitextPath (p : FPath) : FPath × Str :=
  match p.getLast? with
  | none => ([], [])
  | some l => (p.dropLast ++ [(splitextSeg l).1], (splitextSeg l).2)

/-- Concatenation of all components (the effect of
`"…".replace(os.sep, '')` on a separator-joined relative path). -/
def listJoin (p : FPath) : Str := p.foldr (fun a r => a ++ r) []

section BasicLemmas

theorem compact_listJoin (l : List Str) : listJoin (compact l) = listJoin l := by
  induction l with
  | nil => rfl
  | cons a rest ih =>
      by_cases h : a = []
      · subst h; simp [compact, listJoin] at ih ⊢; simpa [compact] using ih
      · simp [compact, listJoin, h] at ih ⊢; simpa [compact] using ih

theorem shard_concat_aux (s : Str) (width : Nat) :
    ∀ depth : Nat,
      listJoin (((List.range depth).map
          (fun i => pyslice s (i * width) (width * (i + 1))))
        ++ [s.drop (depth * width)]) = s := by
  intro depth
  induction depth with
  | zero => simp [listJoin, pyslice]
  | succ d ih =>
      have hslice : pyslice s (d * width) (width * (d + 1))
          = (s.drop (d * width)).take width := by
        unfold pyslice
        congr 1
        have : width * (d + 1) = d * width + width := by ring
        omega
      have hdrop : s.drop ((d + 1) * width) = (s.drop (d * width)).drop width := by
        rw [List.drop_drop]
        congr 1
        ring
      have hjoin : ∀ (l1 l2 : List Str), listJoin (l1 ++ l2) = listJoin l1 ++ listJoin l2 := by
        intro l1 l2
        induction l1 with
        | nil => rfl
        | cons a r ih2 => simp [listJoin] at ih2 ⊢; simp [ih2]
      have ih2 : listJoin ((List.range d).map
          (fun i => pyslice s (i * width) (width * (i + 1)))) ++ s.drop (d * width) = s := by
        have h := ih
        rw [hjoin] at h
        simpa [listJoin] using h
      rw [List.range_succ, List.map_append, hjoin, hjoin]
      simp only [List.map_cons, List.map_nil, listJoin, List.foldr, List.append_nil]
      rw [hslice, hdrop, List.append_assoc, List.take_append_drop]
      simpa [listJoin] using ih2

/-- Concatenating all shard tokens recovers the digest, for every digest and
configuration (clamped Python slices always tile the string). -/
theorem shard_concat (s : Str) (depth width : Nat) :
    listJoin (shard s depth width) = s := by
  unfold shard
  rw [compact_listJoin]
  exact shard_concat_aux s width depth

theorem shard_ne_nil (s : Str) (depth width : Nat) (hs : s ≠ []) :
    shard s depth width ≠ [] := by
  intro h
  have := shard_concat s depth width
  rw [h] at this
  exact hs this.symm

end BasicLemmas

/-! ## Filesystem state and store configuration -/

/-- Explicit filesystem state.  `files` maps absolute paths to byte contents,
`dirs` lists existing directories, `links` the directories that are symbolic
links, and `cwd` is the process working directory against which the OS
resolves relative path strings. -/
structure FS where
  files : List (FPath × Content)
  dirs : List FPath
  links : List FPath
  cwd : FPath
  deriving DecidableEq

/-- Store configuration (HashFS.__init__ with the default
`put_strategy=copy`, `lowercase_extensions=False`).  The digest algorithm is
the function `hash`; `root` is already normalized by `os.path.realpath`. -/
structure Config where
  root : FPath
  depth : Nat
  width : Nat
  hash : Content → Str

/-- Content stored at `p`, if `p` names a regular file. -/
def lookupFile (fs : FS) (p : FPath) : Option Content :=
  (fs.files.find? (fun e => e.1 = p)).map (fun e => e.2)

/-- Model of `os.path.isfile` on an already-resolved absolute path. -/
def isFile (fs : FS) (p : FPath) : Bool :=
  (lookupFile fs p).isSome

/-- Write (or overwrite) the regular file at `p`. -/
def setFile (fs : FS) (p : FPath) (c : Content) : FS :=
  { fs with files := fs.files.filter (fun e => e.1 ≠ p) ++ [(p, c)] }

/-- Model of `os.remove` on an existing regular file. -/
def eraseFile (fs : FS) (p : FPath) : FS :=
  { fs with files := fs.files.filter (fun e => e.1 ≠ p) }

/-- Model of `distutils.dir_util.mkpath`: create the directory and all its
missing ancestors (permission bits are not modelled). -/
def mkpathFS (fs : FS) (p : FPath) : FS :=
  { fs with dirs := fs.dirs ++ (pathInits p).filter (fun q => q ∉ fs.dirs) }

/-- Model of `os.rmdir`. -/
def rmdirFS (fs : FS) (p : FPath) : FS :=
  { fs with dirs := fs.dirs.filter (fun q => q ≠ p) }

/-- All directory entries of the filesystem, files first — the model's fixed
enumeration order for OS-order-dependent operations (`glob`, `os.scandir`). -/
def allEntries (fs : FS) : List FPath :=
  fs.files.map (fun e => e.1) ++ fs.dirs

/-- Model of `os.listdir p`: the immediate children of `p` among all files
and directories. -/
def listdir (fs : FS) (p : FPath) : List FPath :=
  (allEntries fs).filter (fun q => q.dropLast = p ∧ q ≠ p)

/-- Model of `os.path.islink` (only directories are ever symlinks here;
regular stored files are created fresh and are never links). -/
def islink (fs : FS) (p : FPath) : Bool := fs.dirs.contains p && fs.links.contains p

/-- Placeholder basename used when `shutil.move` is given an existing
directory as destination and therefore moves the source *into* it under the
source's (nondeterministic temporary) basename. -/
def tmpSeg : Str := "tmpfile".toList

/-- Model of `shutil.move src dst` for a source that lives outside the store
(`NamedTemporaryFile`), carrying content `c`: if `dst` is an existing
directory the file lands inside it, otherwise it lands at `dst` (atomically
replacing any file there). -/
def moveFS (fs : FS) (dst : FPath) (c : Content) : FS :=
  if dst ∈ fs.dirs then setFile fs (dst ++ [tmpSeg]) c else setFile fs dst c

/-- Modelled from the spec: `hashfs.utils.issubdir` is imported by
`hashfs.py` but its definition is not part of the sources; per the spec,
`unshard` "rejects any path not lexically inside `root`", so `issubdir sub
base` holds exactly when `base` is a strict lexical ancestor of `sub`. -/
def issubdir (subpath base : FPath) : Bool :=
  segsLe base subpath && subpath ≠ base

/-- HashFS.haspath. -/
def haspath (cfg : Config) (p : FPath) : Bool := issubdir p cfg.root

/-- The `".."` path component produced by `os.path.relpath` for paths that
are not under the start directory. -/
def dotdot : Str := ['.', '.']

/-- Length of the longest common leading run of two paths. -/
def commonLen : FPath → FPath → Nat
  | [], _ => 0
  | _, [] => 0
  | a :: as, b :: bs => if a = b then commonLen as bs + 1 else 0

/-- Model of `os.path.relpath(p, root)` on normalized absolute paths:
climb out of the non-shared part of `root`, then descend into `p`. -/
def relpathSegs (cfg : Config) (p : FPath) : FPath :=
  List.replicate (cfg.root.length - commonLen cfg.root p) dotdot
    ++ p.drop (commonLen cfg.root p)

/-- Extension normalization done by HashFS.idpath: a nonempty extension gets
exactly one leading `os.extsep`; an empty or missing one contributes
nothing. -/
def extDot (e : Str) : Str :=
  if e = [] then [] else if e.head? == some '.' then e else '.' :: e

/-- HashFS.idpath: `os.path.join(root, *shard(id)) + extension`, parsed back
into components.  The join and re-parse happen at string level so that
identifiers containing separators behave as they would in Python. -/
def idpath (cfg : Config) (id : Str) (ext : Str) : FPath :=
  strSegs (pyJoin (absStr cfg.root :: shard id cfg.depth cfg.width) ++ extDot ext)

/-- The glob pattern `filepath + ".*"` used by HashFS.realpath: entries in
the same directory whose final component extends `filepath`'s final
component by a dot and an arbitrary (separator-free) suffix. -/
def globMatches (fs : FS) (pc : FPath) : List FPath :=
  (allEntries fs).filter (fun q =>
    (q.dropLast == pc.dropLast) &&
      match q.getLast?, pc.getLast? with
      | some ql, some pl => (pl ++ ['.']).isPrefixOf ql
      | some ql, none => ql.head? == some '.'
      | none, _ => false)

/-- HashFS.realpath: successive candidate checks — the identifier as a path
(the OS resolves a relative string against `cwd`), the identifier joined to
`root`, the sharded id path, and finally the first match of the sharded id
path extended by any extension. -/
def realpathM (cfg : Config) (fs : FS) (s : Str) : Option FPath :=
  let pa := parseStr fs.cwd s
  if isFile fs pa then some pa
  else
    let pb := if isAbsStr s then strSegs s else cfg.root ++ strSegs s
    if isFile fs pb then some pb
    else
      let pc := idpath cfg s []
      if isFile fs pc then some pc
      else
        match globMatches fs pc with
        | [] => none
        | m :: _ => some m

/-- File address value (HashFS.HashAddress). -/
structure HashAddress where
  id : Str
  relpath : FPath
  abspath : FPath
  is_duplicate : Bool
  deriving DecidableEq

/-- HashFS.unshard: raises `ValueError` (modelled as `Except.error ()`) when
the path is not under the root; otherwise strips the root, drops the
extension of the final component and concatenates the components. -/
def unshardE (cfg : Config) (p : FPath) : Except Unit Str :=
  if haspath cfg p then Except.ok (listJoin (splitextPath (relpathSegs cfg p)).1)
  else Except.error ()

/-- HashFS.get: `None` (modelled `Except.ok none`) when nothing resolves; a
`ValueError` from `unshard` propagates as `Except.error ()`. -/
def getM (cfg : Config) (fs : FS) (s : Str) : Except Unit (Option HashAddress) :=
  match realpathM cfg fs s with
  | none => Except.ok none
  | some p =>
      match unshardE cfg p with
      | Except.error e => Except.error e
      | Except.ok id => Except.ok (some ⟨id, relpathSegs cfg p, p, false⟩)

/-- HashFS.open in mode `'rb'`: the value is the full byte content an
`io` handle for the resolved path yields when read to exhaustion;
`Except.error ()` models the `IOError` when nothing resolves (or the
resolved path is a directory, which `io.open` also refuses). -/
def openM (cfg : Config) (fs : FS) (s : Str) : Except Unit Content :=
  match realpathM cfg fs s with
  | none => Except.error ()
  | some p =>
      match lookupFile fs p with
      | none => Except.error ()
      | some c => Except.ok c

/-- HashFS.exists: `bool(self.realpath(file))`. -/
def existsM (cfg : Config) (fs : FS) (s : Str) : Bool :=
  (realpathM cfg fs s).isSome

/-! ## delete and remove_empty -/

/-- The body of HashFS.remove_empty's `while` loop, with explicit fuel.  The
loop walks from `p` toward the root; one unit of fuel per component of the
starting path always suffices to reach the root, so the fueled recursion and
the `while` loop agree on every state the function is actually entered in
(haspath guarantees the root is a strict ancestor of the start). -/
def removeEmptyGo (cfg : Config) : FS → FPath → Nat → FS
  | fs, _, 0 => fs
  | fs, p, n + 1 =>
      if p = cfg.root then fs
      else if listdir fs p ≠ [] ∨ islink fs p then fs
      else removeEmptyGo cfg (rmdirFS fs p) p.dropLast n

/-- HashFS.remove_empty: successively remove empty, non-symlink folders from
`p` upward until the root (exclusive); a path outside the root is left
untouched. -/
def removeEmptyM (cfg : Config) (fs : FS) (p : FPath) : FS :=
  if haspath cfg p then removeEmptyGo cfg fs p p.length else fs

/-- HashFS.delete: resolve, `os.remove` the file (an `OSError` — e.g. the
resolved path being a directory — is swallowed and skips the cleanup), then
remove newly empty ancestor folders. -/
def deleteM (cfg : Config) (fs : FS) (s : Str) : FS :=
  match realpathM cfg fs s with
  | none => fs
  | some p =>
      if isFile fs p then removeEmptyM cfg (eraseFile fs p) p.dropLast
      else fs

/-! ## Stream, put -/

/-- An open readable, seekable byte handle (a Python file-like object). -/
structure Handle where
  content : Content
  pos : Nat
  closed : Bool
  deriving DecidableEq

/-- State of a `Stream` wrapping an already-open handle: the wrapped object
plus the recorded entry position (`_pos`), which is `none` exactly when the
stream opened the file itself. -/
structure StreamSt where
  obj : Handle
  spos : Option Nat
  deriving DecidableEq

/-- Stream.__init__ for a file-like object: `obj.tell()` (which raises on a
closed handle) records the current position. -/
def streamInitHandle (h : Handle) : Except Unit StreamSt :=
  if h.closed then Except.error () else Except.ok ⟨h, some h.pos⟩

/-- Stream.__iter__, run to exhaustion: seek to 0, read everything, and—when
the stream did not open the object itself—seek back to the recorded entry
position.  Returns the bytes read and the new stream state. -/
def streamIter (st : StreamSt) : Content × StreamSt :=
  let afterRead : Handle := ⟨st.obj.content, st.obj.content.length, st.obj.closed⟩
  match st.spos with
  | some p => (st.obj.content, ⟨⟨afterRead.content, p, afterRead.closed⟩, st.spos⟩)
  | none => (st.obj.content, ⟨afterRead, st.spos⟩)

/-- Stream.close: close the underlying object if the stream opened it, else
restore the recorded position. -/
def streamCloseFn (st : StreamSt) : Handle :=
  match st.spos with
  | none => ⟨st.obj.content, st.obj.pos, true⟩
  | some p => ⟨st.obj.content, p, st.obj.closed⟩

/-- The argument of HashFS.put: an already-open handle or a path string. -/
inductive Source where
  | handle : Handle → Source
  | path : Str → Source

/-- HashFS.put with the default copy strategy and `simulate=False` (the
`link` strategy falls back to copy whenever the source exposes no path, and
`lowercase_extensions` is off by default).  Returns the address, the new
filesystem, and — for a handle source — the handle as the caller gets it
back.  `computehash` consumes one full stream iteration; when the content is
new, `_mktempfile` consumes a second one and writes a temporary file outside
the store which `shutil.move` then publishes at the id path; `closing(...)`
finally closes the stream. -/
def putM (cfg : Config) (fs : FS) (src : Source) (ext : Option Str) :
    Except Unit (HashAddress × FS × Option Handle) :=
  match src with
  | Source.path s =>
      match lookupFile fs (parseStr fs.cwd s) with
      | none => Except.error ()
      | some c =>
          let id := cfg.hash c
          let filepath := idpath cfg id (ext.getD [])
          if isFile fs filepath then
            Except.ok (⟨id, relpathSegs cfg filepath, filepath, true⟩, fs, none)
          else
            Except.ok (⟨id, relpathSegs cfg filepath, filepath, false⟩,
              moveFS (mkpathFS fs filepath.dropLast) filepath c, none)
  | Source.handle h =>
      match streamInitHandle h with
      | Except.error e => Except.error e
      | Except.ok st =>
          let r1 := streamIter st
          let id := cfg.hash r1.1
          let filepath := idpath cfg id (ext.getD [])
          if isFile fs filepath then
            Except.ok (⟨id, relpathSegs cfg filepath, filepath, true⟩, fs,
              some (streamCloseFn r1.2))
          else
            let r2 := streamIter r1.2
            Except.ok (⟨id, relpathSegs cfg filepath, filepath, false⟩,
              moveFS (mkpathFS fs filepath.dropLast) filepath r2.1,
              some (streamCloseFn r2.2))

/-- A fresh store: no files, the root directory (and its ancestors) present,
no symlinks. -/
def emptyFS (root cwd : FPath) : FS := ⟨[], pathInits root, [], cwd⟩

/-! ## corrupted and repair -/

/-- HashFS.files(): all regular files strictly under the root directory, in
the model's enumeration order. -/
def filesUnder (cfg : Config) (fs : FS) : List (FPath × Content) :=
  fs.files.filter (fun e => issubdir e.1 cfg.root)

/-- HashFS.corrupted(extensions=True), materialized eagerly as `repair` does
with `tuple(...)`: every stored file whose recomputed digest does not map
back to its actual location, paired with the expected address. -/
def corruptedM (cfg : Config) (fs : FS) : List (FPath × HashAddress) :=
  (filesUnder cfg fs).filterMap (fun e =>
    let id := cfg.hash e.2
    let ext := (splitextSeg (e.1.getLast?.getD [])).2
    let expected := idpath cfg id ext
    if expected ≠ e.1 then
      some (e.1, ⟨id, relpathSegs cfg expected, expected, false⟩)
    else none)

/-- One entry of HashFS.repair's loop: delete the stray file when its
expected location is already occupied, otherwise create the missing
directories and move it into place (permission normalization via
`os.chmod`/`umask` is not modelled; an `os.remove`/`shutil.move` on a source
that has vanished raises and aborts the batch). -/
def repairStep (cfg : Config) (fs : FS) (e : FPath × HashAddress) :
    Except Unit FS :=
  if isFile fs e.2.abspath then
    if isFile fs e.1 then Except.ok (eraseFile fs e.1) else Except.error ()
  else
    match lookupFile fs e.1 with
    | none => Except.error ()
    | some c =>
        Except.ok (moveFS (mkpathFS (eraseFile fs e.1) e.2.abspath.dropLast)
          e.2.abspath c)

/-- HashFS.repair(extensions=True): materialize the corrupted scan, then
process each entry in order. -/
def repairM (cfg : Config) (fs : FS) : Except Unit FS :=
  (corruptedM cfg fs).foldlM (repairStep cfg) fs

/-! ## Path/string helper lemmas -/

theorem segsLe_self_append (r x : FPath) : segsLe r (r ++ x) = true := by
  induction r with
  | nil => rfl
  | cons a as ih => simp [segsLe, ih]

theorem commonLen_self_append (r x : FPath) : commonLen r (r ++ x) = r.length := by
  induction r with
  | nil => cases x <;> rfl
  | cons a as ih => simp [commonLen, ih]

theorem rsplitDotAux_none (l : Str) (h : ∀ c ∈ l, c ≠ '.') :
    rsplitDotAux l = none := by
  induction l with
  | nil => rfl
  | cons c rest ih =>
      have hc : c ≠ '.' := h c (by simp)
      have hrest := ih (fun x hx => h x (by simp [hx]))
      simp [rsplitDotAux, hrest, hc]

theorem splitextSeg_nodot (l : Str) (h : ∀ c ∈ l, c ≠ '.') :
    splitextSeg l = (l, []) := by
  simp [splitextSeg, rsplitDotAux_none l h]

theorem hexChar_ne_slash_dot : ∀ c ∈ hexChars, c ≠ '/' ∧ c ≠ '.' := by decide

theorem mem_shard_sub (d : Str) (depth width : Nat) (x : Str)
    (hx : x ∈ shard d depth width) : ∀ c ∈ x, c ∈ d := by
  intro c hc
  unfold shard compact at hx
  have hx2 := List.of_mem_filter hx
  have hx3 := List.mem_of_mem_filter hx
  rcases List.mem_append.mp hx3 with h1 | h2
  · rcases List.mem_map.mp h1 with ⟨i, _, rfl⟩
    unfold pyslice at hc
    exact List.mem_of_mem_drop (List.mem_of_mem_take hc)
  · have : x = d.drop (depth * width) := by simpa using h2
    subst this
    exact List.mem_of_mem_drop hc

theorem shard_valid (d : Str) (depth width : Nat) (hd : hexStr d) :
    validSegs (shard d depth width) := by
  intro x hx
  constructor
  · unfold shard compact at hx
    have := List.of_mem_filter hx
    simpa using this
  · intro hsl
    have hmem := mem_shard_sub d depth width x hx '/' hsl
    exact (hexChar_ne_slash_dot '/' (hd '/' hmem)).1 rfl

theorem sepJoin_append_single (p : FPath) (c : Str) (hp : p ≠ []) :
    sepJoin (p ++ [c]) = sepJoin p ++ '/' :: c := by
  induction p with
  | nil => exact absurd rfl hp
  | cons a as ih =>
      cases as with
      | nil => simp [sepJoin]
      | cons b bs =>
          have := ih (by simp)
          simp only [List.cons_append, sepJoin] at this ⊢
          simp [this]

theorem sepJoin_getLast (p : FPath) (hv : validSegs p) (hp : p ≠ []) :
    sepJoin p ≠ [] ∧ (sepJoin p).getLast? ≠ some '/' := by
  induction p with
  | nil => exact absurd rfl hp
  | cons a as ih =>
      cases as with
      | nil =>
          have ha := hv a (by simp)
          refine ⟨by simpa [sepJoin] using ha.1, ?_⟩
          intro hlast
          have hmem : '/' ∈ a :=
            List.mem_of_getLast?_eq_some (by simpa [sepJoin] using hlast)
          exact ha.2 hmem
      | cons b bs =>
          have hv2 : validSegs (b :: bs) := fun s hs => hv s (by simp [hs])
          obtain ⟨h1, h2⟩ := ih hv2 (by simp)
          constructor
          · simp [sepJoin]
          · have hrw : sepJoin (a :: b :: bs) = a ++ '/' :: sepJoin (b :: bs) := by
              simp [sepJoin]
            rw [hrw]
            cases hsj : sepJoin (b :: bs) with
            | nil => exact absurd hsj h1
            | cons x xs =>
                rw [hsj] at h2
                obtain ⟨v, hv3⟩ : ∃ v, (x :: xs).getLast? = some v :=
                  ⟨(x :: xs).getLast (by simp), List.getLast?_eq_getLast _ (by simp)⟩
                rw [List.getLast?_append, List.getLast?_cons_cons, hv3]
                rw [hv3] at h2
                simpa [Option.or] using h2

theorem pyJoin2_absStr (p : FPath) (c : Str) (hv : validSegs p)
    (hc : c ≠ []) (hcs : '/' ∉ c) :
    pyJoin2 (absStr p) c = absStr (p ++ [c]) := by
  have hcabs : isAbsStr c = false := by
    cases c with
    | nil => exact absurd rfl hc
    | cons x xs =>
        have hx : x ≠ '/' := fun h => hcs (by simp [h])
        simp [isAbsStr, hx]
  cases p with
  | nil =>
      simp [pyJoin2, hcabs, absStr, sepJoin]
  | cons a as =>
      have hne : (a :: as : FPath) ≠ [] := by simp
      obtain ⟨h1, h2⟩ := sepJoin_getLast (a :: as) hv hne
      have habs : absStr (a :: as) ≠ [] := by simp [absStr]
      have hlast : (absStr (a :: as)).getLast? ≠ some '/' := by
        unfold absStr
        cases hsj : sepJoin (a :: as) with
        | nil => exact absurd hsj h1
        | cons x xs =>
            rw [List.getLast?_cons_cons]
            rw [hsj] at h2
            exact h2
      have hlastb : ((absStr (a :: as)).getLast? == some '/') = false := by
        cases hq : (absStr (a :: as)).getLast? == some '/'
        · rfl
        · exact absurd (eq_of_beq hq) hlast
      unfold pyJoin2
      rw [hcabs]
      simp only [Bool.false_eq_true, if_false, habs, if_neg habs, hlastb]
      simp only [absStr]
      rw [sepJoin_append_single (a :: as) c hne]
      simp

theorem pyJoin_absStr (l : List Str) :
    ∀ p : FPath, validSegs p → (∀ x ∈ l, x ≠ [] ∧ '/' ∉ x) →
      List.foldl pyJoin2 (absStr p) l = absStr (p ++ l) := by
  induction l with
  | nil => intro p _ _; simp
  | cons c cs ih =>
      intro p hp hl
      have hc := hl c (by simp)
      have hstep : pyJoin2 (absStr p) c = absStr (p ++ [c]) :=
        pyJoin2_absStr p c hp hc.1 hc.2
      have hv2 : validSegs (p ++ [c]) := by
        intro s hs
        rcases List.mem_append.mp hs with h | h
        · exact hp s h
        · have : s = c := by simpa using h
          subst this; exact hc
      have hl2 : ∀ x ∈ cs, x ≠ [] ∧ '/' ∉ x := fun x hx => hl x (by simp [hx])
      rw [List.foldl_cons, hstep, ih (p ++ [c]) hv2 hl2]
      simp

theorem splitSlashAux_no_slash (a : Str) (hns : '/' ∉ a) :
    ∀ s cur, splitSlashAux (a ++ s) cur = splitSlashAux s (a.reverse ++ cur) := by
  induction a with
  | nil => intro s cur; simp
  | cons x xs ih =>
      intro s cur
      have hx : x ≠ '/' := fun h => hns (by simp [h])
      have hxs : '/' ∉ xs := fun h => hns (by simp [h])
      simp only [List.cons_append, splitSlashAux, if_neg hx]
      show splitSlashAux (xs ++ s) (x :: cur) = _
      rw [ih hxs s (x :: cur)]
      simp

theorem splitSlashAux_sepJoin (p : FPath) (hv : validSegs p) :
    (splitSlashAux (sepJoin p) []).filter (fun c => c ≠ []) = p := by
  induction p with
  | nil => simp [sepJoin, splitSlashAux]
  | cons a as ih =>
      have ha := hv a (by simp)
      have hv2 : validSegs as := fun s hs => hv s (by simp [hs])
      cases as with
      | nil =>
          have : sepJoin [a] = a := rfl
          rw [this]
          have h0 : splitSlashAux (a ++ []) [] = splitSlashAux [] (a.reverse ++ []) :=
            splitSlashAux_no_slash a ha.2 [] []
          simp only [List.append_nil] at h0
          rw [h0]
          simp [splitSlashAux, ha.1]
      | cons b bs =>
          have hrw : sepJoin (a :: b :: bs) = a ++ '/' :: sepJoin (b :: bs) := by
            simp [sepJoin]
          rw [hrw, splitSlashAux_no_slash a ha.2 ('/' :: sepJoin (b :: bs)) []]
          have hstep : splitSlashAux ('/' :: sepJoin (b :: bs)) (a.reverse ++ [])
              = (a.reverse ++ []).reverse :: splitSlashAux (sepJoin (b :: bs)) [] := by
            simp [splitSlashAux]
          rw [hstep, List.filter_cons]
          simp only [List.append_nil, List.reverse_reverse]
          rw [if_pos (by simp [ha.1]), ih hv2]

theorem strSegs_absStr (p : FPath) (hv : validSegs p) : strSegs (absStr p) = p := by
  unfold strSegs absStr
  have hstep : splitSlashAux ('/' :: sepJoin p) ([] : Str)
      = ([] : Str).reverse :: splitSlashAux (sepJoin p) [] := by
    simp [splitSlashAux]
  rw [hstep, List.filter_cons, if_neg (by simp)]
  exact splitSlashAux_sepJoin p hv

theorem idpath_hex (cfg : Config) (id : Str) (hroot : validSegs cfg.root)
    (hhex : hexStr id) :
    idpath cfg id [] = cfg.root ++ shard id cfg.depth cfg.width := by
  unfold idpath
  have hvshard := shard_valid id cfg.depth cfg.width hhex
  have hl : ∀ x ∈ shard id cfg.depth cfg.width, x ≠ [] ∧ '/' ∉ x := hvshard
  have hjoin : pyJoin (absStr cfg.root :: shard id cfg.depth cfg.width)
      = absStr (cfg.root ++ shard id cfg.depth cfg.width) := by
    unfold pyJoin
    exact pyJoin_absStr _ cfg.root hroot hl
  have hvall : validSegs (cfg.root ++ shard id cfg.depth cfg.width) := by
    intro s hs
    rcases List.mem_append.mp hs with h | h
    · exact hroot s h
    · exact hvshard s h
  have hextdot : extDot [] = [] := rfl
  rw [hextdot, List.append_nil, hjoin]
  exact strSegs_absStr _ hvall

/-! ## Claim C3: shard/unshard round-trip -/

/-- C3: for every valid hex digest `d` and every configuration with
`depth * width ≤ len d`, `unshard` applied to the root joined with the
segments of `shard d depth width` returns `d`: `unshard` is a left inverse
of `shard` relative to the store root. -/
theorem unshard_shard_roundtrip (cfg : Config) (d : Str)
    (hroot : validSegs cfg.root) (hd : hexStr d) (hne : d ≠ [])
    (hdw : cfg.depth * cfg.width ≤ d.length) :
    unshardE cfg (idpath cfg d []) = Except.ok d := by
  have hip := idpath_hex cfg d hroot hd
  rw [hip]
  have hSne : shard d cfg.depth cfg.width ≠ [] := shard_ne_nil d _ _ hne
  have hneq : cfg.root ++ shard d cfg.depth cfg.width ≠ cfg.root := by
    intro h
    have hlen := congrArg List.length h
    simp only [List.length_append] at hlen
    have : (shard d cfg.depth cfg.width).length = 0 := by omega
    exact hSne (List.length_eq_zero.mp this)
  have hhp : haspath cfg (cfg.root ++ shard d cfg.depth cfg.width) = true := by
    unfold haspath issubdir
    rw [segsLe_self_append]
    simp [hneq]
  unfold unshardE
  rw [hhp]
  simp only [if_true]
  congr 1
  unfold relpathSegs
  rw [commonLen_self_append]
  simp only [Nat.sub_self, List.replicate_zero, List.nil_append]
  rw [List.drop_left]
  obtain ⟨l, hl⟩ : ∃ l, (shard d cfg.depth cfg.width).getLast? = some l :=
    ⟨(shard d cfg.depth cfg.width).getLast hSne, List.getLast?_eq_getLast _ hSne⟩
  have hlmem : l ∈ shard d cfg.depth cfg.width := List.mem_of_getLast?_eq_some hl
  have hldot : ∀ c ∈ l, c ≠ '.' := fun c hc =>
    (hexChar_ne_slash_dot c (hd c (mem_shard_sub d _ _ l hlmem c hc))).2
  have hmatch : splitextPath (shard d cfg.depth cfg.width)
      = ((shard d cfg.depth cfg.width).dropLast ++ [(splitextSeg l).1],
         (splitextSeg l).2) := by
    unfold splitextPath
    rw [hl]
  rw [hmatch, splitextSeg_nodot l hldot]
  simp only
  have hgl : l = (shard d cfg.depth cfg.width).getLast hSne := by
    have := List.getLast?_eq_getLast (shard d cfg.depth cfg.width) hSne
    rw [hl] at this
    exact Option.some.inj this
  have hdl : (shard d cfg.depth cfg.width).dropLast ++ [l] = shard d cfg.depth cfg.width := by
    rw [hgl]
    exact List.dropLast_append_getLast hSne
  rw [hdl]
  exact shard_concat d cfg.depth cfg.width

/-- Concrete store used by several witnesses: root `/r`, depth 2, width 1. -/
def cfgW : Config := ⟨[['r']], 2, 1, fun _ => ['a', 'b', 'c', 'd']⟩

/-- Witness for C3 at digest `"abcd"` with depth 2, width 1, root `/r`. -/
theorem unshard_shard_roundtrip_witness :
    unshardE cfgW (idpath cfgW ['a', 'b', 'c', 'd'] []) =
      Except.ok ['a', 'b', 'c', 'd'] :=
  unshard_shard_roundtrip cfgW ['a', 'b', 'c', 'd']
    (by decide) (by decide) (by decide) (by decide)

/-! ## Claim C8: shard segment count -/

/-- C8 counterexample: for digest `"ab"` with depth 2, width 1 — a
configuration satisfying `depth * width ≤ len d` — `shard` returns 2
segments, not `depth + 1 = 3`; the empty remainder is dropped by
`compact`. -/
theorem shard_count_counterexample :
    2 * 1 ≤ (['a', 'b'] : Str).length ∧ (shard ['a', 'b'] 2 1).length ≠ 2 + 1 := by
  decide

/-- C8 amended: when `width ≥ 1` and `depth * width` is strictly less than
the digest length, every token is nonempty, so `shard` returns exactly
`depth + 1` segments and the result is nonempty even when `depth = 0`.
(At `depth * width = len d` the empty remainder is dropped by `compact`,
leaving only `depth` segments.) -/
theorem shard_count_amended (d : Str) (depth width : Nat)
    (hw : 1 ≤ width) (hlt : depth * width < d.length) :
    (shard d depth width).length = depth + 1 ∧ shard d depth width ≠ [] := by
  have hall : ∀ x ∈ ((List.range depth).map
      (fun i => pyslice d (i * width) (width * (i + 1)))) ++ [d.drop (depth * width)],
      x ≠ [] := by
    intro x hx
    rcases List.mem_append.mp hx with h1 | h2
    · rcases List.mem_map.mp h1 with ⟨i, hi, rfl⟩
      have hi2 : i < depth := List.mem_range.mp hi
      have hmul1 : (i + 1) * width ≤ depth * width := Nat.mul_le_mul_right width hi2
      have hmul2 : (i + 1) * width = i * width + width := by ring
      have hmul3 : width * (i + 1) = i * width + width := by ring
      intro hnil
      have hlen := congrArg List.length hnil
      simp only [pyslice, List.length_take, List.length_drop, List.length_nil] at hlen
      omega
    · have hx2 : x = d.drop (depth * width) := by simpa using h2
      subst hx2
      intro hnil
      have hlen := congrArg List.length hnil
      simp only [List.length_drop, List.length_nil] at hlen
      omega
  have hfilter : shard d depth width
      = ((List.range depth).map
          (fun i => pyslice d (i * width) (width * (i + 1))))
        ++ [d.drop (depth * width)] := by
    unfold shard compact
    apply List.filter_eq_self.mpr
    intro a ha
    simpa using hall a ha
  constructor
  · rw [hfilter]
    simp
  · apply shard_ne_nil
    intro h0
    rw [h0] at hlt
    simp at hlt

/-! ## put on a fresh store -/

theorem mem_pathInits_length {q p : FPath} (h : q ∈ pathInits p) :
    q.length ≤ p.length := by
  unfold pathInits at h
  rcases List.mem_map.mp h with ⟨n, hn, rfl⟩
  simp [List.length_take]

theorem mem_mkpath_dirs {fs : FS} {d q : FPath} (h : q ∈ (mkpathFS fs d).dirs) :
    q ∈ fs.dirs ∨ q ∈ pathInits d := by
  unfold mkpathFS at h
  simp only [List.mem_append, List.mem_filter] at h
  rcases h with h | h
  · exact Or.inl h
  · exact Or.inr h.1

theorem idpath_longer (cfg : Config) (id : Str) (hroot : validSegs cfg.root)
    (hhex : hexStr id) (hne : id ≠ []) :
    cfg.root.length < (idpath cfg id []).length := by
  rw [idpath_hex cfg id hroot hhex]
  have hS : shard id cfg.depth cfg.width ≠ [] := shard_ne_nil id _ _ hne
  have : 0 < (shard id cfg.depth cfg.width).length := List.length_pos.mpr hS
  simp only [List.length_append]
  omega

/-- Evaluation of `put` from a fresh store with an open handle source and no
extension: the digest is hashed, directories are created, and the content is
published at the id path; the handle comes back open at its entry
position. -/
theorem put_empty_spec (cfg : Config) (cwd : FPath) (c : Content) (pos : Nat)
    (hroot : validSegs cfg.root) (hhex : hexStr (cfg.hash c))
    (hne : cfg.hash c ≠ []) :
    putM cfg (emptyFS cfg.root cwd) (Source.handle ⟨c, pos, false⟩) none
      = Except.ok (⟨cfg.hash c, relpathSegs cfg (idpath cfg (cfg.hash c) []),
          idpath cfg (cfg.hash c) [], false⟩,
        ⟨[(idpath cfg (cfg.hash c) [], c)],
          (mkpathFS (emptyFS cfg.root cwd) (idpath cfg (cfg.hash c) []).dropLast).dirs,
          [], cwd⟩,
        some ⟨c, pos, false⟩) := by
  have h1 : isFile (emptyFS cfg.root cwd) (idpath cfg (cfg.hash c) []) = false := rfl
  have h2 : idpath cfg (cfg.hash c) []
      ∉ (mkpathFS (emptyFS cfg.root cwd) (idpath cfg (cfg.hash c) []).dropLast).dirs := by
    intro hmem
    have hlong := idpath_longer cfg (cfg.hash c) hroot hhex hne
    rcases mem_mkpath_dirs hmem with h | h
    · have := mem_pathInits_length (p := cfg.root) (by simpa [emptyFS] using h)
      omega
    · have hlen := mem_pathInits_length h
      have : (idpath cfg (cfg.hash c) []).dropLast.length
          = (idpath cfg (cfg.hash c) []).length - 1 := by
        simp [List.length_dropLast]
      omega
  unfold putM streamInitHandle streamIter streamCloseFn
  simp only [Bool.false_eq_true, if_false, Option.getD_none, h1]
  have h2a := h2
  simp only [mkpathFS, emptyFS] at h2a
  simp only [moveFS, mkpathFS, emptyFS, if_neg h2a, setFile]
  rfl

theorem lookup_single (P q : FPath) (c : Content) (D : List FPath)
    (L : List FPath) (w : FPath) :
    lookupFile ⟨[(P, c)], D, L, w⟩ q = if P = q then some c else none := by
  by_cases h : P = q
  · subst h
    simp [lookupFile, List.find?]
  · simp [lookupFile, List.find?, h]

theorem isFile_single (P q : FPath) (c : Content) (D : List FPath)
    (L : List FPath) (w : FPath) (h : isFile ⟨[(P, c)], D, L, w⟩ q = true) :
    q = P := by
  unfold isFile at h
  rw [lookup_single] at h
  by_cases hq : P = q
  · exact hq.symm
  · rw [if_neg hq] at h
    simp at h

/-! ## Claim C2: idempotent put -/

/-- C2: putting the same content twice into a fresh store with no extension
yields addresses with equal id and abspath; the first is not a duplicate,
the second is; the second put leaves the filesystem untouched; and exactly
one file exists at that path afterward. -/
theorem put_idempotent (cfg : Config) (cwd : FPath) (c : Content) (p1 p2 : Nat)
    (hroot : validSegs cfg.root) (hhex : hexStr (cfg.hash c))
    (hne : cfg.hash c ≠ [])
    (a1 a2 : HashAddress) (fs1 fs2 : FS) (h1 h2 : Option Handle)
    (hput1 : putM cfg (emptyFS cfg.root cwd) (Source.handle ⟨c, p1, false⟩) none
      = Except.ok (a1, fs1, h1))
    (hput2 : putM cfg fs1 (Source.handle ⟨c, p2, false⟩) none
      = Except.ok (a2, fs2, h2)) :
    a1.id = a2.id ∧ a1.abspath = a2.abspath ∧
    a1.is_duplicate = false ∧ a2.is_duplicate = true ∧
    fs2 = fs1 ∧ fs2.files.countP (fun e => e.1 = a1.abspath) = 1 := by
  rw [put_empty_spec cfg cwd c p1 hroot hhex hne] at hput1
  simp only [Except.ok.injEq, Prod.mk.injEq] at hput1
  obtain ⟨ha1, hfs1, hh1⟩ := hput1
  subst ha1
  subst hfs1
  have hfile : isFile (⟨[(idpath cfg (cfg.hash c) [], c)],
      (mkpathFS (emptyFS cfg.root cwd) (idpath cfg (cfg.hash c) []).dropLast).dirs,
      [], cwd⟩ : FS) (idpath cfg (cfg.hash c) []) = true := by
    simp [isFile, lookup_single]
  have hsecond : putM cfg (⟨[(idpath cfg (cfg.hash c) [], c)],
      (mkpathFS (emptyFS cfg.root cwd) (idpath cfg (cfg.hash c) []).dropLast).dirs,
      [], cwd⟩ : FS) (Source.handle ⟨c, p2, false⟩) none
      = Except.ok (⟨cfg.hash c, relpathSegs cfg (idpath cfg (cfg.hash c) []),
          idpath cfg (cfg.hash c) [], true⟩,
        (⟨[(idpath cfg (cfg.hash c) [], c)],
          (mkpathFS (emptyFS cfg.root cwd) (idpath cfg (cfg.hash c) []).dropLast).dirs,
          [], cwd⟩ : FS), some ⟨c, p2, false⟩) := by
    unfold putM streamInitHandle streamIter streamCloseFn
    simp only [Bool.false_eq_true, if_false, Option.getD_none, hfile, if_true]
  rw [hsecond] at hput2
  simp only [Except.ok.injEq, Prod.mk.injEq] at hput2
  obtain ⟨ha2, hfs2, hh2⟩ := hput2
  subst ha2
  subst hfs2
  refine ⟨rfl, rfl, rfl, rfl, rfl, ?_⟩
  simp [List.countP_cons]

/-- Witness content/position used by the put witnesses. -/
def cW : Content := [1, 2, 3]

/-- Witness for C2 on the store `cfgW` (root `/r`, depth 2, width 1, digest
constantly `"abcd"`), content `[1, 2, 3]`. -/
theorem put_idempotent_witness :
    (⟨['a', 'b', 'c', 'd'], [['a'], ['b'], ['c', 'd']],
        [['r'], ['a'], ['b'], ['c', 'd']], false⟩ : HashAddress).id
      = (⟨['a', 'b', 'c', 'd'], [['a'], ['b'], ['c', 'd']],
          [['r'], ['a'], ['b'], ['c', 'd']], true⟩ : HashAddress).id := by
  have h := put_idempotent cfgW [['r']] cW 0 0 (by decide) (by decide) (by decide)
    ⟨['a', 'b', 'c', 'd'], [['a'], ['b'], ['c', 'd']],
      [['r'], ['a'], ['b'], ['c', 'd']], false⟩
    ⟨['a', 'b', 'c', 'd'], [['a'], ['b'], ['c', 'd']],
      [['r'], ['a'], ['b'], ['c', 'd']], true⟩
    ⟨[([['r'], ['a'], ['b'], ['c', 'd']], cW)],
      [[], [['r']], [['r'], ['a']], [['r'], ['a'], ['b']]], [], [['r']]⟩
    ⟨[([['r'], ['a'], ['b'], ['c', 'd']], cW)],
      [[], [['r']], [['r'], ['a']], [['r'], ['a'], ['b']]], [], [['r']]⟩
    (some ⟨cW, 0, false⟩) (some ⟨cW, 0, false⟩) (by rfl) (by rfl)
  exact h.1

/-! ## Claim C1: content integrity round-trip -/

theorem realpath_single (cfg : Config) (P : FPath) (c : Content)
    (D L : List FPath) (w : FPath) (s : Str)
    (hstep3 : idpath cfg s [] = P) :
    realpathM cfg ⟨[(P, c)], D, L, w⟩ s = some P := by
  unfold realpathM
  simp only
  by_cases hpa : isFile ⟨[(P, c)], D, L, w⟩ (parseStr w s) = true
  · rw [if_pos hpa, isFile_single _ _ _ _ _ _ hpa]
  · rw [if_neg hpa]
    by_cases hpb : isFile ⟨[(P, c)], D, L, w⟩
        (if isAbsStr s then strSegs s else cfg.root ++ strSegs s) = true
    · rw [if_pos hpb, isFile_single _ _ _ _ _ _ hpb]
    · rw [if_neg hpb, hstep3, if_pos (by simp [isFile, lookup_single])]

theorem openM_single (cfg : Config) (P : FPath) (c : Content)
    (D L : List FPath) (w : FPath) (s : Str)
    (hreal : realpathM cfg ⟨[(P, c)], D, L, w⟩ s = some P) :
    openM cfg ⟨[(P, c)], D, L, w⟩ s = Except.ok c := by
  unfold openM
  rw [hreal]
  show (match lookupFile ⟨[(P, c)], D, L, w⟩ P with
    | none => Except.error ()
    | some c => Except.ok c) = Except.ok c
  rw [lookup_single, if_pos rfl]

/-- C1: for every byte content `c`, after `address = put c` (no extension)
into a fresh store, `open address.id` succeeds and the full read equals `c`
byte-for-byte. -/
theorem put_open_roundtrip (cfg : Config) (cwd : FPath) (c : Content) (pos : Nat)
    (hroot : validSegs cfg.root) (hhex : hexStr (cfg.hash c))
    (hne : cfg.hash c ≠ [])
    (a : HashAddress) (fs1 : FS) (oh : Option Handle)
    (hput : putM cfg (emptyFS cfg.root cwd) (Source.handle ⟨c, pos, false⟩) none
      = Except.ok (a, fs1, oh)) :
    openM cfg fs1 a.id = Except.ok c := by
  rw [put_empty_spec cfg cwd c pos hroot hhex hne] at hput
  simp only [Except.ok.injEq, Prod.mk.injEq] at hput
  obtain ⟨ha, hfs, hoh⟩ := hput
  subst ha
  subst hfs
  exact openM_single cfg _ c _ _ _ _ (realpath_single cfg _ c _ _ _ _ rfl)

/-- Witness for C1 on the store `cfgW` with content `[1, 2, 3]`. -/
theorem put_open_roundtrip_witness :
    openM cfgW
      ⟨[([['r'], ['a'], ['b'], ['c', 'd']], cW)],
        [[], [['r']], [['r'], ['a']], [['r'], ['a'], ['b']]], [], [['r']]⟩
      (⟨['a', 'b', 'c', 'd'], [['a'], ['b'], ['c', 'd']],
        [['r'], ['a'], ['b'], ['c', 'd']], false⟩ : HashAddress).id
      = Except.ok cW :=
  put_open_roundtrip cfgW [['r']] cW 0 (by decide) (by decide) (by decide)
    ⟨['a', 'b', 'c', 'd'], [['a'], ['b'], ['c', 'd']],
      [['r'], ['a'], ['b'], ['c', 'd']], false⟩
    ⟨[([['r'], ['a'], ['b'], ['c', 'd']], cW)],
      [[], [['r']], [['r'], ['a']], [['r'], ['a'], ['b']]], [], [['r']]⟩
    (some ⟨cW, 0, false⟩) (by rfl)

/-! ## Claim C9: caller-handle preservation -/

/-- C9: when `put` is given an already-open handle, the handle comes back
neither closed nor moved: its position equals the entry position (each full
stream iteration seeks back to the recorded position, and closing the
stream restores it as well), and its content is untouched. -/
theorem put_restores_handle (cfg : Config) (fs : FS) (c : Content) (pos : Nat)
    (ext : Option Str) (a : HashAddress) (fs2 : FS) (oh : Option Handle)
    (hput : putM cfg fs (Source.handle ⟨c, pos, false⟩) ext
      = Except.ok (a, fs2, oh)) :
    oh = some ⟨c, pos, false⟩ := by
  unfold putM streamInitHandle streamIter streamCloseFn at hput
  simp only [Bool.false_eq_true, if_false] at hput
  by_cases hf : isFile fs (idpath cfg (cfg.hash c) (ext.getD [])) = true
  · rw [hf] at hput
    simp only [if_true, Except.ok.injEq, Prod.mk.injEq] at hput
    exact hput.2.2.symm
  · rw [Bool.not_eq_true] at hf
    rw [hf] at hput
    simp only [Bool.false_eq_true, if_false, Except.ok.injEq, Prod.mk.injEq] at hput
    exact hput.2.2.symm

/-- Witness for C9: a duplicate put on `cfgW` hands the handle back open at
position 5. -/
theorem put_restores_handle_witness :
    (some (⟨cW, 5, false⟩ : Handle)) = some (⟨cW, 5, false⟩ : Handle) :=
  put_restores_handle cfgW
    ⟨[([['r'], ['a'], ['b'], ['c', 'd']], cW)], [], [], [['r']]⟩
    cW 5 none
    ⟨['a', 'b', 'c', 'd'], [['a'], ['b'], ['c', 'd']],
      [['r'], ['a'], ['b'], ['c', 'd']], true⟩
    ⟨[([['r'], ['a'], ['b'], ['c', 'd']], cW)], [], [], [['r']]⟩
    (some ⟨cW, 5, false⟩) (by rfl)

/-! ## Claim C10: files outside the root -/

theorem segsLe_trans {a b c : FPath} (h1 : segsLe a b = true)
    (h2 : segsLe b c = true) : segsLe a c = true := by
  induction a generalizing b c with
  | nil => rfl
  | cons x xs ih =>
      cases b with
      | nil => simp [segsLe] at h1
      | cons y ys =>
          cases c with
          | nil => simp [segsLe] at h2
          | cons z zs =>
              simp only [segsLe, Bool.and_eq_true, beq_iff_eq] at h1 h2 ⊢
              exact ⟨h1.1.trans h2.1, ih h1.2 h2.2⟩

theorem segsLe_dropLast (p : FPath) : segsLe p.dropLast p = true := by
  induction p with
  | nil => rfl
  | cons a as ih =>
      cases as with
      | nil => rfl
      | cons b bs =>
          simp only [List.dropLast_cons₂, segsLe, beq_self_eq_true, Bool.true_and]
          exact ih

theorem lookup_erase_self (fs : FS) (p : FPath) :
    lookupFile (eraseFile fs p) p = none := by
  unfold lookupFile eraseFile
  simp only
  induction fs.files with
  | nil => rfl
  | cons e rest ih =>
      by_cases h : e.1 = p
      · simpa [List.filter_cons, h] using ih
      · simpa [List.filter_cons, h, List.find?] using ih

theorem lookup_erase_other (fs : FS) (p q : FPath) (h : q ≠ p) :
    lookupFile (eraseFile fs p) q = lookupFile fs q := by
  unfold lookupFile eraseFile
  simp only
  induction fs.files with
  | nil => rfl
  | cons e rest ih =>
      rw [List.filter_cons]
      by_cases he : e.1 = p
      · rw [if_neg (by simp [he])]
        rw [List.find?_cons_of_neg rest (by simp [he, Ne.symm h]), ih]
      · rw [if_pos (by simp [he])]
        by_cases heq : e.1 = q
        · rw [List.find?_cons_of_pos _ (by simp [heq]),
            List.find?_cons_of_pos _ (by simp [heq])]
        · rw [List.find?_cons_of_neg _ (by simp [heq]),
            List.find?_cons_of_neg _ (by simp [heq]), ih]

/-- C10: for a file at an absolute path lexically outside the store root,
`exists` is true and `delete` removes the file (touching nothing else and no
directory, since the cleanup walk refuses paths outside the root), yet `get`
raises the `ValueError` from `unshard` instead of returning an address or
`None`. -/
theorem outside_root_file_behavior (cfg : Config) (fs : FS) (p : FPath)
    (c : Content) (hv : validSegs p) (hout : segsLe cfg.root p = false)
    (hfile : lookupFile fs p = some c) :
    existsM cfg fs (absStr p) = true ∧
    getM cfg fs (absStr p) = Except.error () ∧
    lookupFile (deleteM cfg fs (absStr p)) p = none ∧
    (∀ q, q ≠ p → lookupFile (deleteM cfg fs (absStr p)) q = lookupFile fs q) ∧
    (deleteM cfg fs (absStr p)).dirs = fs.dirs := by
  have habs : isAbsStr (absStr p) = true := by simp [isAbsStr, absStr]
  have hpa : parseStr fs.cwd (absStr p) = p := by
    unfold parseStr
    rw [if_pos habs]
    exact strSegs_absStr p hv
  have hisf : isFile fs p = true := by simp [isFile, hfile]
  have hreal : realpathM cfg fs (absStr p) = some p := by
    unfold realpathM
    simp only
    rw [hpa, if_pos hisf]
  have hhp : haspath cfg p = false := by
    unfold haspath issubdir
    rw [hout]
    rfl
  have hhpd : haspath cfg p.dropLast = false := by
    unfold haspath issubdir
    cases hsl : segsLe cfg.root p.dropLast with
    | false => rfl
    | true =>
        have := segsLe_trans hsl (segsLe_dropLast p)
        rw [hout] at this
        cases this
  have hdel : deleteM cfg fs (absStr p) = eraseFile fs p := by
    unfold deleteM
    rw [hreal]
    simp only [hisf, if_true]
    unfold removeEmptyM
    rw [hhpd]
    simp
  refine ⟨?_, ?_, ?_, ?_, ?_⟩
  · unfold existsM
    rw [hreal]
    rfl
  · have hun : unshardE cfg p = Except.error () := by
      unfold unshardE
      rw [hhp]
      rfl
    simp only [getM, hreal, hun]
  · rw [hdel]
    exact lookup_erase_self fs p
  · intro q hq
    rw [hdel]
    exact lookup_erase_other fs p q hq
  · rw [hdel]
    rfl

/-- Filesystem with a single file outside the root of `cfgW`, used by the
C10 witness. -/
def fsOut : FS := ⟨[([['x']], [7])], [[], [['r']]], [], [['r']]⟩

/-- Witness for C10: the file `/x` lies outside root `/r`; `get` raises the
unshard `ValueError`. -/
theorem outside_root_file_behavior_witness :
    getM cfgW fsOut (absStr [['x']]) = Except.error () :=
  (outside_root_file_behavior cfgW fsOut [['x']] [7]
    (by decide) (by decide) (by rfl)).2.1

/-! ## Claim C7: repair and emptied directories -/

/-- Store used by the repair scenario: root `/r`, depth 1, width 2, digest
constantly `"aabbcc"`. -/
def cfgR : Config := ⟨[['r']], 1, 2, fun _ => ['a', 'a', 'b', 'b', 'c', 'c']⟩

/-- A store holding one stray file at `/r/aa/bb/cc` whose digest maps to
`/r/aa/bbcc`. -/
def fsR : FS :=
  ⟨[([['r'], ['a', 'a'], ['b', 'b'], ['c', 'c']], [1, 2, 3])],
    [[], [['r']], [['r'], ['a', 'a']], [['r'], ['a', 'a'], ['b', 'b']]],
    [], [['r']]⟩

/-- The filesystem after `repair` on the scenario above (the error branch is
unreachable there). -/
def fsRafter : FS :=
  match repairM cfgR fsR with
  | Except.ok f => f
  | Except.error _ => fsR

/-- C7 counterexample: `repair` moves the stray file `/r/aa/bb/cc` to its
expected location `/r/aa/bbcc`, emptying the directory `/r/aa/bb` — yet that
directory is still present afterwards: `repair` performs no directory
reclamation at all. -/
theorem repair_leaves_empty_dir_counterexample :
    isFile fsR [['r'], ['a', 'a'], ['b', 'b'], ['c', 'c']] = true ∧
    (repairM cfgR fsR).toOption = some fsRafter ∧
    isFile fsRafter [['r'], ['a', 'a'], ['b', 'b'], ['c', 'c']] = false ∧
    isFile fsRafter [['r'], ['a', 'a'], ['b', 'b', 'c', 'c']] = true ∧
    listdir fsRafter [['r'], ['a', 'a'], ['b', 'b']] = [] ∧
    [['r'], ['a', 'a'], ['b', 'b']] ∈ fsRafter.dirs := by
  decide

theorem repairStep_dirs (cfg : Config) (fs : FS) (e : FPath × HashAddress)
    (fs2 : FS) (h : repairStep cfg fs e = Except.ok fs2) :
    ∀ d ∈ fs.dirs, d ∈ fs2.dirs := by
  unfold repairStep at h
  by_cases h1 : isFile fs e.2.abspath = true
  · rw [if_pos h1] at h
    by_cases h2 : isFile fs e.1 = true
    · rw [if_pos h2] at h
      simp only [Except.ok.injEq] at h
      subst h
      intro d hd
      exact hd
    · rw [if_neg h2] at h
      cases h
  · rw [if_neg h1] at h
    cases hl : lookupFile fs e.1 with
    | none => rw [hl] at h; cases h
    | some c =>
        rw [hl] at h
        simp only [Except.ok.injEq] at h
        subst h
        intro d hd
        unfold moveFS mkpathFS eraseFile setFile
        by_cases hm : e.2.abspath
            ∈ (mkpathFS (eraseFile fs e.1) e.2.abspath.dropLast).dirs
        · simp only [mkpathFS, eraseFile] at hm
          rw [if_pos hm]
          simp only [List.mem_append]
          exact Or.inl hd
        · simp only [mkpathFS, eraseFile] at hm
          rw [if_neg hm]
          simp only [List.mem_append]
          exact Or.inl hd

theorem foldlM_repair_dirs (cfg : Config) (l : List (FPath × HashAddress)) :
    ∀ (fs fs2 : FS), List.foldlM (repairStep cfg) fs l = Except.ok fs2 →
      ∀ d ∈ fs.dirs, d ∈ fs2.dirs := by
  induction l with
  | nil =>
      intro fs fs2 h d hd
      simp only [List.foldlM] at h
      cases h
      exact hd
  | cons e rest ih =>
      intro fs fs2 h d hd
      simp only [List.foldlM] at h ⊢
      cases hstep : repairStep cfg fs e with
      | error err =>
          rw [hstep] at h
          simp [Bind.bind, Except.bind] at h
      | ok fs1 =>
          rw [hstep] at h
          simp only [Bind.bind, Except.bind] at h
          exact ih fs1 fs2 h d (repairStep_dirs cfg fs e fs1 hstep d hd)

/-- C7 amended: `repair` processes every corrupted entry (moving the stray
file to its expected path, or deleting it when the expected path is already
occupied), but it removes no directory at all — every directory present
before `repair`, including the ones its moves empty, is still present
afterwards. -/
theorem repair_preserves_dirs (cfg : Config) (fs fs2 : FS)
    (h : repairM cfg fs = Except.ok fs2) :
    ∀ d ∈ fs.dirs, d ∈ fs2.dirs := by
  unfold repairM at h
  exact foldlM_repair_dirs cfg (corruptedM cfg fs) fs fs2 h

/-- Witness for the amended C7 on the repair scenario: the emptied directory
`/r/aa/bb` survives. -/
theorem repair_preserves_dirs_witness :
    [['r'], ['a', 'a'], ['b', 'b']] ∈ fsRafter.dirs :=
  repair_preserves_dirs cfgR fsR fsRafter (by rfl)
    [['r'], ['a', 'a'], ['b', 'b']] (by decide)

/-! ## Claim C4: resolution order of get -/

/-- The resolution procedure exactly as the claim words it, for comparison
with `realpathM`: (a) the identifier as an absolute path of an existing
file; (b) the identifier as a path relative to root (with `os.path.join`
semantics, under which an absolute identifier stays itself); (c) the shard
path of the identifier with no extension; (d) the first wildcard-suffix
match of the shard path; (e) otherwise no match. -/
def resolveSpec (cfg : Config) (fs : FS) (s : Str) : Option FPath :=
  if isAbsStr s = true ∧ isFile fs (strSegs s) = true then some (strSegs s)
  else if isFile fs (if isAbsStr s then strSegs s else cfg.root ++ strSegs s) then
    some (if isAbsStr s then strSegs s else cfg.root ++ strSegs s)
  else if isFile fs (idpath cfg s []) then some (idpath cfg s [])
  else
    match globMatches fs (idpath cfg s []) with
    | [] => none
    | m :: _ => some m

/-- A store whose working directory `/w` differs from the root `/r` of
`cfgW` and which holds a file at `/w/x` — the state on which `realpath`'s
first check deviates from the claimed order. -/
def fsCwd : FS := ⟨[([['w'], ['x']], [5])], [[], [['r']], [['w']]], [], [['w']]⟩

/-- C4 counterexample: for the relative identifier `"x"` with working
directory `/w` and root `/r`, none of the claim's candidates (a)–(d)
matches (`resolveSpec` returns `none`, so the claim says `get` returns
`None`), yet the code's first check — `os.path.isfile` being cwd-relative
for relative strings (hashfs.py:287) — matches the file `/w/x` outside the
claimed candidate list, and `get` then raises the `ValueError` from
`unshard` instead of returning `None`. -/
theorem resolution_order_counterexample :
    resolveSpec cfgW fsCwd ['x'] = none ∧
    realpathM cfgW fsCwd ['x'] = some [['w'], ['x']] ∧
    getM cfgW fsCwd ['x'] = Except.error () :=
  ⟨by decide, by decide, by rfl⟩

/-- The resolution procedure of the amended claim: step (a) treats the
identifier as a path of an existing file, with a relative identifier
resolved by the OS against the process working directory (this is the only
change forced by the counterexample); steps (b)–(e) are as before. -/
def resolveSpecAmended (cfg : Config) (fs : FS) (s : Str) : Option FPath :=
  if isFile fs (parseStr fs.cwd s) then some (parseStr fs.cwd s)
  else if isFile fs (if isAbsStr s then strSegs s else cfg.root ++ strSegs s) then
    some (if isAbsStr s then strSegs s else cfg.root ++ strSegs s)
  else if isFile fs (idpath cfg s []) then some (idpath cfg s [])
  else
    match globMatches fs (idpath cfg s []) with
    | [] => none
    | m :: _ => some m

/-- C4 amended: for every identifier and every store state, `realpath`
resolves by trying, in this strict order with first match winning: (a) the
identifier as a path of an existing file, a relative identifier being
resolved against the process working directory; (b) the identifier joined
to the root; (c) the shard path with no extension; (d) the first
wildcard-suffix match of the shard path — and when no candidate matches,
`get` returns `None` rather than raising. -/
theorem resolution_order_amended (cfg : Config) (fs : FS) (s : Str) :
    realpathM cfg fs s = resolveSpecAmended cfg fs s ∧
    (realpathM cfg fs s = none → getM cfg fs s = Except.ok none) := by
  constructor
  · unfold realpathM resolveSpecAmended
    rfl
  · intro h
    simp only [getM, h]

/-- Witness for the amended C4: on a fresh store nothing matches the
identifier `"z"`, and `get` returns `None` without raising. -/
theorem resolution_order_amended_witness :
    getM cfgW (emptyFS [['r']] [['r']]) ['z'] = Except.ok none :=
  (resolution_order_amended cfgW (emptyFS [['r']] [['r']]) ['z']).2 (by decide)

/-! ## Claim C6: delete reclaims empty ancestors -/

theorem segsLe_refl (p : FPath) : segsLe p p = true := by
  induction p with
  | nil => rfl
  | cons a as ih => simp [segsLe, ih]

theorem segsLe_antisymm {a b : FPath} (h1 : segsLe a b = true)
    (h2 : segsLe b a = true) : a = b := by
  induction a generalizing b with
  | nil => cases b with
    | nil => rfl
    | cons y ys => simp [segsLe] at h2
  | cons x xs ih =>
      cases b with
      | nil => simp [segsLe] at h1
      | cons y ys =>
          simp only [segsLe, Bool.and_eq_true, beq_iff_eq] at h1 h2
          rw [h1.1, ih h1.2 h2.2]

theorem segsLe_proper_dropLast {e p : FPath} (h : segsLe e p = true)
    (hne : e ≠ p) : segsLe e p.dropLast = true := by
  induction e generalizing p with
  | nil => rfl
  | cons x xs ih =>
      cases p with
      | nil => simp [segsLe] at h
      | cons y ys =>
          simp only [segsLe, Bool.and_eq_true, beq_iff_eq] at h
          obtain ⟨hxy, hrest⟩ := h
          subst hxy
          have hys : ys ≠ [] := by
            intro h0
            subst h0
            cases xs with
            | nil => exact hne rfl
            | cons z zs => simp [segsLe] at hrest
          cases ys with
          | nil => exact absurd rfl hys
          | cons b bs =>
              simp only [List.dropLast_cons₂, segsLe, beq_self_eq_true,
                Bool.true_and]
              exact ih hrest (fun hh => hne (by rw [hh]))

theorem reGo_files_links (cfg : Config) :
    ∀ (n : Nat) (fs : FS) (p : FPath),
      (removeEmptyGo cfg fs p n).files = fs.files ∧
      (removeEmptyGo cfg fs p n).links = fs.links ∧
      (removeEmptyGo cfg fs p n).cwd = fs.cwd := by
  intro n
  induction n with
  | zero => intro fs p; exact ⟨rfl, rfl, rfl⟩
  | succ m ih =>
      intro fs p
      unfold removeEmptyGo
      by_cases h1 : p = cfg.root
      · rw [if_pos h1]; exact ⟨rfl, rfl, rfl⟩
      · rw [if_neg h1]
        by_cases h2 : listdir fs p ≠ [] ∨ islink fs p = true
        · rw [if_pos h2]; exact ⟨rfl, rfl, rfl⟩
        · rw [if_neg h2]
          exact ih (rmdirFS fs p) p.dropLast

theorem reGo_dirs_sub (cfg : Config) :
    ∀ (n : Nat) (fs : FS) (p : FPath) (d : FPath),
      d ∈ (removeEmptyGo cfg fs p n).dirs → d ∈ fs.dirs := by
  intro n
  induction n with
  | zero => intro fs p d hd; exact hd
  | succ m ih =>
      intro fs p d hd
      unfold removeEmptyGo at hd
      by_cases h1 : p = cfg.root
      · rw [if_pos h1] at hd; exact hd
      · rw [if_neg h1] at hd
        by_cases h2 : listdir fs p ≠ [] ∨ islink fs p = true
        · rw [if_pos h2] at hd; exact hd
        · rw [if_neg h2] at hd
          have := ih (rmdirFS fs p) p.dropLast d hd
          unfold rmdirFS at this
          simp only [List.mem_filter] at this
          exact this.1

theorem listdir_nil_of_sub (fs fs2 : FS) (hf : fs2.files = fs.files)
    (hd : ∀ q ∈ fs2.dirs, q ∈ fs.dirs) (d : FPath)
    (h : listdir fs d = []) : listdir fs2 d = [] := by
  unfold listdir allEntries at h ⊢
  rw [hf]
  rw [List.filter_eq_nil_iff] at h ⊢
  intro a ha
  rcases List.mem_append.mp ha with hm | hm
  · exact h a (List.mem_append.mpr (Or.inl hm))
  · exact h a (List.mem_append.mpr (Or.inr (hd a hm)))

theorem mem_rmdir_dirs {fs : FS} {p d : FPath} (h : d ∈ (rmdirFS fs p).dirs) :
    d ∈ fs.dirs ∧ d ≠ p := by
  unfold rmdirFS at h
  simp only [List.mem_filter, decide_eq_true_eq] at h
  exact h

theorem not_mem_rmdir_self (fs : FS) (p : FPath) : p ∉ (rmdirFS fs p).dirs := by
  intro h
  exact (mem_rmdir_dirs h).2 rfl

theorem contains_eq_decide_mem (l : List FPath) (a : FPath) :
    l.contains a = decide (a ∈ l) := by
  simp [List.contains]

theorem not_mem_links_of_islink_false {fs : FS} {p : FPath}
    (hd : p ∈ fs.dirs) (h : islink fs p = false) : p ∉ fs.links := by
  unfold islink at h
  rw [contains_eq_decide_mem, contains_eq_decide_mem] at h
  simp only [Bool.and_eq_false_iff, decide_eq_false_iff_not] at h
  rcases h with h | h
  · exact absurd hd h
  · exact h

theorem reGo_removed (cfg : Config) :
    ∀ (n : Nat) (fs : FS) (p : FPath) (d : FPath),
      d ∈ fs.dirs → d ∉ (removeEmptyGo cfg fs p n).dirs →
      d ≠ cfg.root ∧ d ∉ fs.links ∧ segsLe d p = true ∧
        listdir (removeEmptyGo cfg fs p n) d = [] := by
  intro n
  induction n with
  | zero => intro fs p d hd hnd; exact absurd hd hnd
  | succ m ih =>
      intro fs p d hd hnd
      unfold removeEmptyGo at hnd ⊢
      by_cases h1 : p = cfg.root
      · rw [if_pos h1] at hnd ⊢; exact absurd hd hnd
      · rw [if_neg h1] at hnd ⊢
        by_cases h2 : listdir fs p ≠ [] ∨ islink fs p = true
        · rw [if_pos h2] at hnd ⊢; exact absurd hd hnd
        · rw [if_neg h2] at hnd ⊢
          push_neg at h2
          obtain ⟨hld, hlkne⟩ := h2
          have hlk : islink fs p = false := by
            cases hb : islink fs p with
            | false => rfl
            | true => exact absurd hb hlkne
          have hfinal_files :
              (removeEmptyGo cfg (rmdirFS fs p) p.dropLast m).files = fs.files :=
            (reGo_files_links cfg m (rmdirFS fs p) p.dropLast).1
          have hfinal_sub :
              ∀ q ∈ (removeEmptyGo cfg (rmdirFS fs p) p.dropLast m).dirs,
                q ∈ fs.dirs := by
            intro q hq
            exact (mem_rmdir_dirs (reGo_dirs_sub cfg m _ _ q hq)).1
          by_cases hdp : d = p
          · subst hdp
            refine ⟨h1, not_mem_links_of_islink_false hd hlk, segsLe_refl d, ?_⟩
            exact listdir_nil_of_sub fs _ hfinal_files hfinal_sub d hld
          · have hdmem : d ∈ (rmdirFS fs p).dirs := by
              unfold rmdirFS
              simp only [List.mem_filter, decide_eq_true_eq]
              exact ⟨hd, hdp⟩
            obtain ⟨hr1, hr2, hr3, hr4⟩ := ih (rmdirFS fs p) p.dropLast d hdmem hnd
            refine ⟨hr1, ?_, segsLe_trans hr3 (segsLe_dropLast p), hr4⟩
            exact hr2

theorem reGo_contig (cfg : Config) :
    ∀ (n : Nat) (fs : FS) (p : FPath) (d : FPath),
      d ∈ fs.dirs → d ∉ (removeEmptyGo cfg fs p n).dirs →
      ∀ e, segsLe d e = true → segsLe e p = true → e ∈ fs.dirs →
        e ∉ (removeEmptyGo cfg fs p n).dirs := by
  intro n
  induction n with
  | zero => intro fs p d hd hnd; exact absurd hd hnd
  | succ m ih =>
      intro fs p d hd hnd e hde hep hemem
      unfold removeEmptyGo at hnd ⊢
      by_cases h1 : p = cfg.root
      · rw [if_pos h1] at hnd ⊢; exact absurd hd hnd
      · rw [if_neg h1] at hnd ⊢
        by_cases h2 : listdir fs p ≠ [] ∨ islink fs p = true
        · rw [if_pos h2] at hnd ⊢; exact absurd hd hnd
        · rw [if_neg h2] at hnd ⊢
          by_cases hep2 : e = p
          · subst hep2
            intro hmem
            exact not_mem_rmdir_self fs e (reGo_dirs_sub cfg m _ _ e hmem)
          · have hedrop : segsLe e p.dropLast = true :=
              segsLe_proper_dropLast hep hep2
            by_cases hdp : d = p
            · subst hdp
              have : d = e := segsLe_antisymm hde (segsLe_trans hep (segsLe_refl d))
              exact absurd this.symm hep2
            · have hdmem : d ∈ (rmdirFS fs p).dirs := by
                unfold rmdirFS
                simp only [List.mem_filter, decide_eq_true_eq]
                exact ⟨hd, hdp⟩
              have hemem2 : e ∈ (rmdirFS fs p).dirs := by
                unfold rmdirFS
                simp only [List.mem_filter, decide_eq_true_eq]
                exact ⟨hemem, hep2⟩
              exact ih (rmdirFS fs p) p.dropLast d hdmem hnd e hde hedrop hemem2

theorem segsLe_length {a b : FPath} (h : segsLe a b = true) :
    a.length ≤ b.length := by
  induction a generalizing b with
  | nil => simp
  | cons x xs ih =>
      cases b with
      | nil => simp [segsLe] at h
      | cons y ys =>
          simp only [segsLe, Bool.and_eq_true] at h
          simpa using ih h.2

theorem segsLe_nil_right {d : FPath} (h : segsLe d [] = true) : d = [] := by
  cases d with
  | nil => rfl
  | cons x xs => simp [segsLe] at h

theorem listdir_rmdir_sub {fs : FS} {p e q : FPath}
    (h : q ∈ listdir (rmdirFS fs p) e) : q ∈ listdir fs e := by
  unfold listdir allEntries at h ⊢
  unfold rmdirFS at h
  simp only [List.mem_filter, List.mem_append] at h ⊢
  refine ⟨?_, h.2⟩
  rcases h.1 with hm | hm
  · exact Or.inl hm
  · exact Or.inr hm.1

theorem lookupFile_none_not_key {fs : FS} {q : FPath}
    (h : lookupFile fs q = none) : q ∉ fs.files.map (fun e => e.1) := by
  intro hmem
  rcases List.mem_map.mp hmem with ⟨e0, he0, rfl⟩
  unfold lookupFile at h
  cases hf : fs.files.find? (fun e => e.1 = e0.1) with
  | some e1 => rw [hf] at h; simp at h
  | none =>
      have := List.find?_eq_none.mp hf e0 he0
      simp at this

/-- Completeness of the remove-empty walk: along an ancestor chain from the
deepest directory `p` up to (and including) `d`, if no chain member is a
symbolic link and every directory entry of a chain member is itself a
non-file chain directory deeper down, then the walk removes the entire
chain. -/
theorem reGo_complete (cfg : Config) :
    ∀ (n : Nat) (fs : FS) (p : FPath) (d : FPath),
      p.length ≤ n →
      segsLe cfg.root d = true → d ≠ cfg.root → segsLe d p = true →
      (∀ e, segsLe d e = true → segsLe e p = true → e ∉ fs.links) →
      (∀ e q, segsLe d e = true → segsLe e p = true → q ∈ listdir fs e →
        q ∈ fs.dirs ∧ lookupFile fs q = none ∧ segsLe q p = true) →
      ∀ e, segsLe d e = true → segsLe e p = true →
        e ∉ (removeEmptyGo cfg fs p n).dirs := by
  intro n
  induction n with
  | zero =>
      intro fs p d hlen hrd hdr hdp _ _ e _ _
      have hp0 : p = [] := List.length_eq_zero.mp (Nat.le_zero.mp hlen)
      subst hp0
      have hd0 : d = [] := segsLe_nil_right hdp
      subst hd0
      have hr0 : cfg.root = [] := segsLe_nil_right hrd
      exact absurd hr0.symm hdr
  | succ m ih =>
      intro fs p d hlen hrd hdr hdp hlinks hch e hde hep
      have hpne : p ≠ [] := by
        intro h0
        subst h0
        have hd0 : d = [] := segsLe_nil_right hdp
        subst hd0
        exact hdr (segsLe_nil_right hrd).symm
      have hproot : p ≠ cfg.root := by
        intro h0
        subst h0
        exact hdr (segsLe_antisymm hdp hrd)
      unfold removeEmptyGo
      rw [if_neg hproot]
      have hld : listdir fs p = [] := by
        cases hq : listdir fs p with
        | nil => rfl
        | cons q qs =>
            have hqin : q ∈ listdir fs p := by rw [hq]; simp
            obtain ⟨_, _, hqp⟩ := hch p q hdp (segsLe_refl p) hqin
            have hchild : q.dropLast = p ∧ q ≠ p := by
              unfold listdir at hqin
              have := (List.mem_filter.mp hqin).2
              simpa using this
            have hqne : q ≠ [] := by
              intro h0
              subst h0
              exact hpne hchild.1.symm
            have hlq : q.length = p.length + 1 := by
              have hl1 := congrArg List.length hchild.1
              rw [List.length_dropLast] at hl1
              have hl2 : 0 < q.length := List.length_pos.mpr hqne
              omega
            have hle := segsLe_length hqp
            omega
      have hlk : islink fs p = false := by
        have hnl := hlinks p hdp (segsLe_refl p)
        unfold islink
        rw [contains_eq_decide_mem, contains_eq_decide_mem]
        simp [hnl]
      rw [if_neg (by
        rw [not_or]
        constructor
        · simp [hld]
        · simp [hlk])]
      by_cases hep3 : e = p
      · subst hep3
        intro hmem
        exact not_mem_rmdir_self fs e (reGo_dirs_sub cfg m _ _ e hmem)
      · have hedrop : segsLe e p.dropLast = true := segsLe_proper_dropLast hep hep3
        have hdp2 : d ≠ p := by
          intro h0
          subst h0
          exact hep3 (segsLe_antisymm hep hde)
        have hddrop : segsLe d p.dropLast = true := segsLe_proper_dropLast hdp hdp2
        have hlen2 : p.dropLast.length ≤ m := by
          rw [List.length_dropLast]
          have := List.length_pos.mpr hpne
          omega
        apply ih (rmdirFS fs p) p.dropLast d hlen2 hrd hdr hddrop ?hlinks2 ?hch2
          e hde hedrop
        case hlinks2 =>
          intro e2 hde2 hep2
          exact hlinks e2 hde2 (segsLe_trans hep2 (segsLe_dropLast p))
        case hch2 =>
          intro e2 q hde2 hep2 hqin
          have hq_old : q ∈ listdir fs e2 := listdir_rmdir_sub hqin
          obtain ⟨hqd, hqf, hqp⟩ :=
            hch e2 q hde2 (segsLe_trans hep2 (segsLe_dropLast p)) hq_old
          have hqnotp : q ≠ p := by
            intro h0
            subst h0
            unfold listdir at hqin
            have hqent := List.mem_of_mem_filter hqin
            unfold allEntries at hqent
            rcases List.mem_append.mp hqent with hm | hm
            · exact lookupFile_none_not_key hqf hm
            · exact not_mem_rmdir_self fs q hm
          refine ⟨?_, hqf, segsLe_proper_dropLast hqp hqnotp⟩
          unfold rmdirFS
          simp only [List.mem_filter, decide_eq_true_eq]
          exact ⟨hqd, hqnotp⟩

/-- C6: when `delete` resolves its argument to a stored regular file, it
removes that file (and nothing else), then walks upward from the file's
parent removing each directory as long as it is empty and not a symbolic
link: every removed directory is a non-link ancestor chain-member below the
parent that is empty afterwards (4), the removed set is upward-contiguous
from the parent, stopping at the first non-empty or symlinked directory (5),
the parent itself is removed whenever it is empty, not a symlink and
strictly inside the root (6), the walk is complete — when every member of
an ancestor chain from the parent up to some directory `d` strictly inside
the root is a non-link whose only entries (after the file deletion) are
chain directories deeper down, the entire chain including `d` is
removed (7) — and the root directory itself is never removed (3). -/
theorem delete_reclaims_empty_ancestors (cfg : Config) (fs : FS) (s : Str)
    (p : FPath) (hreal : realpathM cfg fs s = some p)
    (hfile : isFile fs p = true) :
    lookupFile (deleteM cfg fs s) p = none ∧
    (∀ q, q ≠ p → lookupFile (deleteM cfg fs s) q = lookupFile fs q) ∧
    (cfg.root ∈ fs.dirs → cfg.root ∈ (deleteM cfg fs s).dirs) ∧
    (∀ d ∈ fs.dirs, d ∉ (deleteM cfg fs s).dirs →
      d ≠ cfg.root ∧ d ∉ fs.links ∧ segsLe d p.dropLast = true ∧
        listdir (deleteM cfg fs s) d = []) ∧
    (∀ d ∈ fs.dirs, d ∉ (deleteM cfg fs s).dirs →
      ∀ e, segsLe d e = true → segsLe e p.dropLast = true → e ∈ fs.dirs →
        e ∉ (deleteM cfg fs s).dirs) ∧
    (haspath cfg p.dropLast = true → listdir (eraseFile fs p) p.dropLast = [] →
      islink (eraseFile fs p) p.dropLast = false →
      p.dropLast ∉ (deleteM cfg fs s).dirs) ∧
    (haspath cfg p.dropLast = true →
      ∀ d, segsLe cfg.root d = true → d ≠ cfg.root →
        segsLe d p.dropLast = true →
        (∀ e, segsLe d e = true → segsLe e p.dropLast = true → e ∉ fs.links) →
        (∀ e q, segsLe d e = true → segsLe e p.dropLast = true →
          q ∈ listdir (eraseFile fs p) e →
          q ∈ fs.dirs ∧ lookupFile (eraseFile fs p) q = none ∧
            segsLe q p.dropLast = true) →
        ∀ e, segsLe d e = true → segsLe e p.dropLast = true →
          e ∉ (deleteM cfg fs s).dirs) := by
  have hdel : deleteM cfg fs s = removeEmptyM cfg (eraseFile fs p) p.dropLast := by
    unfold deleteM
    rw [hreal]
    simp only [hfile, if_true]
  rw [hdel]
  unfold removeEmptyM
  by_cases hhp : haspath cfg p.dropLast = true
  · rw [if_pos hhp]
    refine ⟨?_, ?_, ?_, ?_, ?_, ?_, ?_⟩
    · have h := lookup_erase_self fs p
      unfold lookupFile at h ⊢
      rw [(reGo_files_links cfg p.dropLast.length (eraseFile fs p) p.dropLast).1]
      exact h
    · intro q hq
      have h := lookup_erase_other fs p q hq
      unfold lookupFile at h ⊢
      rw [(reGo_files_links cfg p.dropLast.length (eraseFile fs p) p.dropLast).1]
      exact h
    · intro hroot
      by_contra hnot
      have := (reGo_removed cfg p.dropLast.length (eraseFile fs p) p.dropLast
        cfg.root hroot hnot).1
      exact this rfl
    · intro d hd hnd
      exact reGo_removed cfg p.dropLast.length (eraseFile fs p) p.dropLast d hd hnd
    · intro d hd hnd e hde hep hemem
      exact reGo_contig cfg p.dropLast.length (eraseFile fs p) p.dropLast d hd hnd
        e hde hep hemem
    · intro _ hld hlk
      have hne : p.dropLast ≠ [] := by
        intro h0
        unfold haspath issubdir at hhp
        rw [h0] at hhp
        simp only [Bool.and_eq_true, beq_iff_eq] at hhp
        cases hroot : cfg.root with
        | nil =>
            rw [hroot] at hhp
            simp at hhp
        | cons x xs =>
            rw [hroot] at hhp
            simp [segsLe] at hhp
      cases hlen : p.dropLast.length with
      | zero => exact absurd (List.length_eq_zero.mp hlen) hne
      | succ k =>
          unfold removeEmptyGo
          have hproot : p.dropLast ≠ cfg.root := by
            unfold haspath issubdir at hhp
            simp only [Bool.and_eq_true, decide_eq_true_eq] at hhp
            exact hhp.2
          rw [if_neg hproot]
          rw [if_neg (by
            push_neg
            refine ⟨hld, ?_⟩
            rw [hlk]
            simp)]
          intro hmem
          exact not_mem_rmdir_self (eraseFile fs p) p.dropLast
            (reGo_dirs_sub cfg k _ _ p.dropLast hmem)
    · intro _ d hrd hdr hddrop hlchain hchain e hde hep
      exact reGo_complete cfg p.dropLast.length (eraseFile fs p) p.dropLast d
        (Nat.le_refl _) hrd hdr hddrop hlchain hchain e hde hep
  · rw [if_neg hhp]
    refine ⟨lookup_erase_self fs p, fun q hq => lookup_erase_other fs p q hq,
      fun h => h, ?_, ?_, ?_, ?_⟩
    · intro d hd hnd
      exact absurd hd hnd
    · intro d hd hnd
      exact absurd hd hnd
    · intro h
      exact absurd h hhp
    · intro h
      exact absurd h hhp

/-- Store for the C6 witness: the spec's `a/b/c` scenario — a single file
at `/r/a/b/c` with its ancestor directories. -/
def fsABC : FS :=
  ⟨[([['r'], ['a'], ['b'], ['c']], [9])],
    [[], [['r']], [['r'], ['a']], [['r'], ['a'], ['b']]], [], [['r']]⟩

/-- Witness for C6: deleting the sole file `/r/a/b/c` removes the emptied
ancestor `/r/a` as well — the completeness conjunct applied to the chain
`/r/a`, `/r/a/b`. -/
theorem delete_reclaims_empty_ancestors_witness :
    [['r'], ['a']] ∉
      (deleteM cfgW fsABC (absStr [['r'], ['a'], ['b'], ['c']])).dirs := by
  have h7 := (delete_reclaims_empty_ancestors cfgW fsABC
    (absStr [['r'], ['a'], ['b'], ['c']]) [['r'], ['a'], ['b'], ['c']]
    (by decide) (by decide)).2.2.2.2.2.2
  apply h7 (by decide) [['r'], ['a']] (by decide) (by decide) (by decide)
    ?hlinks ?hch [['r'], ['a']] (by decide) (by decide)
  case hlinks =>
    intro e _ _ hmem
    simp [fsABC] at hmem
  case hch =>
    intro e q _ _ hq
    unfold listdir at hq
    have hq2 := List.mem_of_mem_filter hq
    have hall : allEntries (eraseFile fsABC [['r'], ['a'], ['b'], ['c']])
        = [[], [['r']], [['r'], ['a']], [['r'], ['a'], ['b']]] := by decide
    rw [hall] at hq2
    have hcases : q = [] ∨ q = [['r']] ∨ q = [['r'], ['a']] ∨
        q = [['r'], ['a'], ['b']] := by simpa using hq2
    rcases hcases with rfl | rfl | rfl | rfl
    · exact ⟨by decide, by decide, by decide⟩
    · exact ⟨by decide, by decide, by decide⟩
    · exact ⟨by decide, by decide, by decide⟩
    · exact ⟨by decide, by decide, by decide⟩

/-- Witness for the amended C8 at digest `"abc"` with depth 2, width 1. -/
theorem shard_count_amended_witness :
    (shard ['a', 'b', 'c'] 2 1).length = 2 + 1 ∧ shard ['a', 'b', 'c'] 2 1 ≠ [] :=
  shard_count_amended ['a', 'b', 'c'] 2 1 (by decide) (by decide)
